import Mathlib

set_option maxRecDepth 100000

/- Shallow embedding of the EmSwLabs tower firmware core, translated from:
   - src/Lab5/Sources/FIFO.c    (byte-wide circular FIFO buffer)
   - src/Lab5/Sources/packet.c  (5-byte packet encoder/decoder)
   - src/Lab4/Sources/Flash.c   (flash allocator and phrase write engine)
   - src/Lab5/Sources/main.c    (acknowledgement logic)
   Machine integers are modelled as Nat; byte stores truncate with % 256.
   The FIFO capacity FIFO_SIZE is defined in a header that is not among the
   sources, so the FIFO model is parametrised by the capacity N. -/

/-- State of `TFIFO` (FIFO.c): backing byte array, start index, end index,
byte count, and the two counting semaphores created by `FIFO_Init`
(`GetSemaphore` counts items available, `PutSemaphore` counts space
available).  Each OS semaphore is modelled by its count. -/
structure TFIFO where
  Buffer : List Nat
  Start : Nat
  End : Nat
  NbBytes : Nat
  GetSemaphore : Nat
  PutSemaphore : Nat
deriving DecidableEq

/-- `FIFO_Init` (FIFO.c lines 21-30): `NbBytes = Start = End = 0`,
`GetSemaphore` created with count 0, `PutSemaphore` with count `FIFO_SIZE`.
The C code leaves the backing array uninitialised; it is modelled as zeros
(no theorem depends on the initial array contents). -/
def FIFO_Init (N : Nat) : TFIFO :=
  { Buffer := List.replicate N 0
    Start := 0
    End := 0
    NbBytes := 0
    GetSemaphore := 0
    PutSemaphore := N }

/-- `FIFO_Put` (FIFO.c lines 32-56): non-blocking put.  If `NbBytes < FIFO_SIZE`
it stores `data` at index `End`, increments `NbBytes`, advances `End` modulo
the capacity, signals `GetSemaphore` and returns true; otherwise it returns
false leaving the state untouched.  The critical section is a no-op in this
sequential model. -/
def FIFO_Put (N : Nat) (FIFO : TFIFO) (data : Nat) : Bool × TFIFO :=
  if FIFO.NbBytes < N then
    (true,
      { FIFO with
        Buffer := FIFO.Buffer.set FIFO.End data
        NbBytes := FIFO.NbBytes + 1
        End := (FIFO.End + 1) % N
        GetSemaphore := FIFO.GetSemaphore + 1 })
  else
    (false, FIFO)

/-- `FIFO_Get` (FIFO.c lines 58-83): non-blocking get.  If `NbBytes > 0` it
reads the byte at `Start` into `*dataPtr`, decrements `NbBytes`, advances
`Start` modulo the capacity, signals `PutSemaphore` and returns true;
otherwise it returns false.  `dataPrev` is the byte the caller's `dataPtr`
held before the call; the returned middle component is the byte it holds
after the call. -/
def FIFO_Get (N : Nat) (FIFO : TFIFO) (dataPrev : Nat) : Bool × Nat × TFIFO :=
  if 0 < FIFO.NbBytes then
    (true, FIFO.Buffer.getD FIFO.Start 0,
      { FIFO with
        NbBytes := FIFO.NbBytes - 1
        Start := (FIFO.Start + 1) % N
        PutSemaphore := FIFO.PutSemaphore + 1 })
  else
    (false, dataPrev, FIFO)

/-- `FIFO_BlockingPut` (FIFO.c lines 94-101): waits on `PutSemaphore`
(decrementing it) and then performs `FIFO_Put`.  In this sequential model a
wait on a zero semaphore cannot complete, and the `PE_DEBUGHALT` taken when
the inner put fails after a successful wait also yields no final state;
both are `none`. -/
def FIFO_BlockingPut (N : Nat) (FIFO : TFIFO) (data : Nat) : Option TFIFO :=
  if 0 < FIFO.PutSemaphore then
    let r := FIFO_Put N { FIFO with PutSemaphore := FIFO.PutSemaphore - 1 } data
    if r.1 then some r.2 else none
  else
    none

/-- `FIFO_BlockingGet` (FIFO.c lines 85-92): waits on `GetSemaphore`
(decrementing it) and then performs `FIFO_Get`, analogous to
`FIFO_BlockingPut`. -/
def FIFO_BlockingGet (N : Nat) (FIFO : TFIFO) (dataPrev : Nat) : Option (Nat × TFIFO) :=
  if 0 < FIFO.GetSemaphore then
    let r := FIFO_Get N { FIFO with GetSemaphore := FIFO.GetSemaphore - 1 } dataPrev
    if r.1 then some (r.2.1, r.2.2) else none
  else
    none

/-- One non-blocking FIFO operation: a put of a byte, or a get. -/
inductive NBOp where
  | put : Nat → NBOp
  | get : NBOp
deriving DecidableEq

/-- Run a sequence of non-blocking operations, accumulating the state, the
list of successfully put bytes and the list of successfully got bytes. -/
def runNB (N : Nat) : List NBOp → TFIFO × List Nat × List Nat → TFIFO × List Nat × List Nat
  | [], acc => acc
  | NBOp.put b :: rest, (f, puts, gets) =>
    let r := FIFO_Put N f b
    runNB N rest (r.2, if r.1 then puts ++ [b] else puts, gets)
  | NBOp.get :: rest, (f, puts, gets) =>
    let r := FIFO_Get N f 0
    runNB N rest (r.2.2, puts, if r.1 then gets ++ [r.2.1] else gets)

/-- One blocking FIFO operation: a blocking put of a byte, or a blocking get. -/
inductive BOp where
  | put : Nat → BOp
  | get : BOp
deriving DecidableEq

/-- Run a sequence of blocking operations; `none` when some operation could
not complete (its wait would suspend forever, or it hit `PE_DEBUGHALT`). -/
def runBlocking (N : Nat) : List BOp → TFIFO → Option TFIFO
  | [], f => some f
  | BOp.put b :: rest, f =>
    match FIFO_BlockingPut N f b with
    | some f2 => runBlocking N rest f2
    | none => none
  | BOp.get :: rest, f =>
    match FIFO_BlockingGet N f 0 with
    | some r => runBlocking N rest r.2
    | none => none

/-- Structural invariant of a reachable FIFO state: the count is within
capacity, `Start` is a valid index, `End` is the derived write index, and the
backing array has the fixed capacity length. -/
def FIFOInv (N : Nat) (f : TFIFO) : Prop :=
  f.NbBytes ≤ N ∧ f.Start < N ∧ f.End = (f.Start + f.NbBytes) % N ∧ f.Buffer.length = N

/-- The abstract queue contents of a FIFO state: the `NbBytes` bytes starting
at `Start`, in ring order. -/
def queueList (N : Nat) (f : TFIFO) : List Nat :=
  (List.range f.NbBytes).map (fun i => f.Buffer.getD ((f.Start + i) % N) 0)

/-- Semaphore accounting invariant tying the two semaphore counts to the byte
count; it holds along blocking-only operation sequences. -/
def SemInv (N : Nat) (f : TFIFO) : Prop :=
  f.GetSemaphore = f.NbBytes ∧ f.PutSemaphore + f.NbBytes = N

/-- The decoded packet structure `TPacket` (packet.h / packet.c). -/
structure TPacket where
  command : Nat
  parameter1 : Nat
  parameter2 : Nat
  parameter3 : Nat
deriving DecidableEq

/-- `IsChecksumValid` (packet.c lines 69-82): XOR of the first four buffered
bytes compared against the fifth. -/
def IsChecksumValid (buf : List Nat) : Bool :=
  (((buf.getD 0 0) ^^^ (buf.getD 1 0)) ^^^ (buf.getD 2 0)) ^^^ (buf.getD 3 0) == buf.getD 4 0

/-- One iteration of the `Packet_Get` loop body (packet.c lines 119-144) on
the internal buffer: append the received byte (`ReadNextByte`); once five
bytes are buffered either emit the packet and reset the buffer
(`SetValuesAndResetBuffer`) or discard the first byte (`ShiftBuffer`).
Returns the new buffer, the emitted packet if any, and the number of
discarded bytes (0 or 1). -/
def feedByte (buf : List Nat) (data : Nat) : List Nat × Option TPacket × Nat :=
  let buf2 := buf ++ [data]
  if 5 ≤ buf2.length then
    if IsChecksumValid buf2 then
      ([], some ⟨buf2.getD 0 0, buf2.getD 1 0, buf2.getD 2 0, buf2.getD 3 0⟩, 0)
    else
      (buf2.tail, none, 1)
  else
    (buf2, none, 0)

/-- Repeated `Packet_Get` decoding over a byte stream: the final internal
buffer, the packets emitted in order, and the total number of bytes discarded
by resynchronisation. -/
def decodeStream : List Nat → List Nat → List Nat × List TPacket × Nat
  | [], buf => (buf, [], 0)
  | b :: rest, buf =>
    let r := feedByte buf b
    let s := decodeStream rest r.1
    (s.1, r.2.1.toList ++ s.2.1, r.2.2 + s.2.2)

/-- The five wire bytes written by `Packet_Put` (packet.c lines 146-166), in
transmission order, with the checksum computed as in line 150. -/
def packetBytes (command parameter1 parameter2 parameter3 : Nat) : List Nat :=
  [command, parameter1, parameter2, parameter3,
   ((command ^^^ parameter1) ^^^ parameter2) ^^^ parameter3]

/-- Short-circuit conjunction of `FIFO_Put` calls over a byte list: stops at
the first rejected byte; this is the semantics of the chained `&&` of the
five `UART_OutChar` calls in `Packet_Put`. -/
def putList (N : Nat) : List Nat → TFIFO → Bool × TFIFO
  | [], f => (true, f)
  | b :: bs, f =>
    let r := FIFO_Put N f b
    if r.1 then putList N bs r.2 else (false, r.2)

/-- `Packet_Put` (packet.c lines 146-166) against its transmit byte sink.
Modelled from the spec: Lab5's `UART_OutChar` is not among the sources; the
spec describes it as a try-put into the outgoing ring buffer (as Lab2's
`UART_OutChar` indeed is), so the sink is a `TFIFO` of capacity N.  The
`PutMutex` wait/signal pair is a no-op in this sequential model. -/
def Packet_Put (N : Nat) (txFIFO : TFIFO) (command parameter1 parameter2 parameter3 : Nat) :
    Bool × TFIFO :=
  putList N (packetBytes command parameter1 parameter2 parameter3) txFIFO

/-- Flash hardware outcome model: whether the erase-sector command and the
program-phrase command each complete without `FPVIOL`/`ACCERR` errors
(`LaunchCommand`, Flash.c lines 45-79). -/
structure FlashHW where
  eraseOk : Bool
  programOk : Bool
deriving DecidableEq

/-- `EraseSector` (Flash.c lines 104-113): on success the stored phrase reads
as all 1s per byte (0xFF); on a hardware error the stored phrase is kept. -/
def EraseSector (hw : FlashHW) (stored : Fin 8 → Nat) : Bool × (Fin 8 → Nat) :=
  if hw.eraseOk then (true, fun _ => 0xFF) else (false, stored)

/-- `WritePhrase` (Flash.c lines 87-97): programs the 8-byte phrase; on a
hardware error the stored phrase is kept. -/
def WritePhrase (hw : FlashHW) (stored phrase : Fin 8 → Nat) : Bool × (Fin 8 → Nat) :=
  if hw.programOk then (true, phrase) else (false, stored)

/-- `ModifySector` (Flash.c lines 123-127): `EraseSector(address) &&
WritePhrase(address, phrase)` with C short-circuit evaluation. -/
def ModifySector (hw : FlashHW) (stored phrase : Fin 8 → Nat) : Bool × (Fin 8 → Nat) :=
  let e := EraseSector hw stored
  if e.1 then WritePhrase hw e.2 phrase else (false, e.2)

/-- Little-endian in-memory overwrite of the `size`-byte sub-range of the
copied phrase at byte offset `offset`, as performed by the pointer casts of
`SET_DATA` in `Flash_WriteN` (Flash.c lines 148-165); the phrase is viewed as
its 8 bytes. -/
def setBytes (phrase : Fin 8 → Nat) (offset size data : Nat) : Fin 8 → Nat :=
  fun i =>
    if offset ≤ i.val ∧ i.val < offset + size then (data >>> (8 * (i.val - offset))) % 256
    else phrase i

/-- The modulus of the source's 32-bit unsigned address arithmetic. -/
def UINT32_MOD : Nat := 4294967296

/-- `Flash_WriteN` (Flash.c lines 138-169).  Modelled from the spec: the
constants `FLASH_DATA_START`/`FLASH_DATA_END` live in the absent Flash.h; per
the spec the managed region is one 8-byte phrase at a fixed base, so the base
is the parameter `start` and the region end is `start + 8`.  The bounds check
is line 141 (`address < FLASH_DATA_START || address + size > FLASH_DATA_END
|| address % size != 0`); both sides of the middle comparison are computed in
uint32 arithmetic, hence reduced modulo 2^32, so a sum that wraps (e.g.
`address = 0xFFFFFFFC, size = 4`) passes the source's validation.  The size
switch is lines 151-165, and the final step is `ModifySector` on the mutated
copy of the stored phrase. -/
def Flash_WriteN (hw : FlashHW) (start : Nat) (stored : Fin 8 → Nat) (address data size : Nat) :
    Bool × (Fin 8 → Nat) :=
  if address < start ∨ (start + 8) % UINT32_MOD < (address + size) % UINT32_MOD ∨
      address % size ≠ 0 then
    (false, stored)
  else if size = 1 ∨ size = 2 ∨ size = 4 then
    ModifySector hw stored (setBytes stored (address - start) size data)
  else
    (false, stored)

/-- `Flash_Write32` (Flash.c lines 218-222).  The C function calls
`Flash_WriteN` but is missing the `return`, so the boolean outcome of the
erase-and-program sequence does not propagate; the function is modelled with
the effective observed behaviour of reporting success regardless (the defect
flagged in the spec's design notes). -/
def Flash_Write32 (hw : FlashHW) (start : Nat) (stored : Fin 8 → Nat) (address data : Nat) :
    Bool × (Fin 8 → Nat) :=
  let r := Flash_WriteN hw start stored address data 4
  (true, r.2)

/-- `Flash_Write16` (Flash.c lines 224-228), with the same missing `return`
as `Flash_Write32`. -/
def Flash_Write16 (hw : FlashHW) (start : Nat) (stored : Fin 8 → Nat) (address data : Nat) :
    Bool × (Fin 8 → Nat) :=
  let r := Flash_WriteN hw start stored address data 2
  (true, r.2)

/-- `Flash_Write8` (Flash.c lines 230-234), with the same missing `return`
as `Flash_Write32`. -/
def Flash_Write8 (hw : FlashHW) (start : Nat) (stored : Fin 8 → Nat) (address data : Nat) :
    Bool × (Fin 8 → Nat) :=
  let r := Flash_WriteN hw start stored address data 1
  (true, r.2)

/-- The scan loop of `Flash_AllocateVar` (Flash.c lines 200-212): offsets
`0, size, 2*size, ...` while `offset < 8`, window mask shifted left by `size`
each step; returns the first offset whose window is disjoint from the
allocation bitmap, together with that window mask.  The fuel 8 dominates the
at most `8 / size` iterations of the C loop. -/
def allocScan : Nat → Nat → Nat → Nat → Nat → Option (Nat × Nat)
  | 0, _, _, _, _ => none
  | fuel + 1, availableBytes, size, offset, allocMask =>
    if offset < 8 then
      if allocMask &&& availableBytes = 0 then
        some (offset, allocMask)
      else
        allocScan fuel availableBytes size (offset + size) (allocMask <<< size)
    else
      none

/-- `Flash_AllocateVar` (Flash.c lines 185-216) acting on the static
allocation bitmap `availableBytes`: sizes other than 1, 2, 4 fail; otherwise
the first free aligned window is claimed.  Returns the granted byte offset
within the phrase and the updated bitmap.  (The C function returns the
address `FLASH_DATA_START + offset`; the offset determines it.) -/
def Flash_AllocateVar (availableBytes size : Nat) : Option (Nat × Nat) :=
  if size ≠ 1 ∧ size ≠ 2 ∧ size ≠ 4 then
    none
  else
    match allocScan 8 availableBytes size 0 ((1 <<< size) - 1) with
    | some r => some (r.1, availableBytes ||| r.2)
    | none => none

/-- `PACKET_ACK_MASK = 1 << 7` (main.c line 49): bit 7 of the command byte
is reserved for packet acknowledgement. -/
def PACKET_ACK_MASK : Nat := 0x80

/-- `SendAcknowledgeIfRequired` (main.c lines 464-477): when bit 7 of the
received command is set, `Packet_Put` is called with the command masked by
`(wasSuccess << 7) | ~PACKET_ACK_MASK` (which truncates to 0xFF or 0x7F in
uint8 arithmetic) and the three parameters echoed; otherwise nothing is
transmitted.  The result is the 4-byte payload handed to `Packet_Put`, if
any. -/
def SendAcknowledgeIfRequired (command parameter1 parameter2 parameter3 : Nat)
    (wasSuccess : Bool) : Option (Nat × Nat × Nat × Nat) :=
  if command &&& PACKET_ACK_MASK ≠ 0 then
    some (command &&& (((if wasSuccess then 1 else 0) <<< 7) ||| 0x7F),
      parameter1, parameter2, parameter3)
  else
    none

/-- The first-fit allocation offset as the spec's words describe it: the
first offset among 0..7 that is a multiple of `size` and whose window mask
`((1 <<< size) - 1) <<< offset` is disjoint from the allocation bitmap.
Stated for comparison with the `Flash_AllocateVar` translated from the
source. -/
def specFirstFit (availableBytes size : Nat) : Option Nat :=
  (List.range 8).find? fun off =>
    off % size == 0 && (((1 <<< size) - 1) <<< off) &&& availableBytes == 0

/-- Distinct offsets below the modulus stay distinct after adding a common
base and reducing modulo it. -/
theorem add_mod_ne_of_lt (a x y N : Nat) (hx : x < N) (hy : y < N) (hxy : x ≠ y) :
    (a + x) % N ≠ (a + y) % N := by
  intro h
  have hmod : x ≡ y [MOD N] := Nat.ModEq.add_left_cancel' a h
  rw [Nat.ModEq, Nat.mod_eq_of_lt hx, Nat.mod_eq_of_lt hy] at hmod
  exact hxy hmod

/-- A successful `FIFO_Put` preserves the structural invariant and appends
the byte to the abstract queue. -/
theorem FIFO_Put_queue (N : Nat) (f : TFIFO) (b : Nat) (hInv : FIFOInv N f)
    (h : f.NbBytes < N) :
    (FIFO_Put N f b).1 = true ∧ FIFOInv N (FIFO_Put N f b).2 ∧
    queueList N (FIFO_Put N f b).2 = queueList N f ++ [b] := by
  obtain ⟨hle, hStart, hEnd, hlen⟩ := hInv
  have hN : 0 < N := Nat.lt_of_le_of_lt (Nat.zero_le _) h
  have hEndLt : f.End < N := hEnd ▸ Nat.mod_lt _ hN
  unfold FIFO_Put
  rw [if_pos h]
  refine ⟨rfl, ⟨h, hStart, ?_, by simp [hlen]⟩, ?_⟩
  · show (f.End + 1) % N = (f.Start + (f.NbBytes + 1)) % N
    rw [hEnd, Nat.mod_add_mod, ← Nat.add_assoc]
  · show (List.range (f.NbBytes + 1)).map
        (fun i => (f.Buffer.set f.End b).getD ((f.Start + i) % N) 0) =
      (List.range f.NbBytes).map (fun i => f.Buffer.getD ((f.Start + i) % N) 0) ++ [b]
    rw [List.range_succ, List.map_append]
    congr 1
    · apply List.map_congr_left
      intro i hi
      have hi2 : i < f.NbBytes := List.mem_range.mp hi
      have hne : f.End ≠ (f.Start + i) % N := by
        rw [hEnd]
        exact fun hc =>
          add_mod_ne_of_lt f.Start i f.NbBytes N (lt_trans hi2 h) h (Nat.ne_of_lt hi2) hc.symm
      rw [List.getD_eq_getElem?_getD, List.getD_eq_getElem?_getD, List.getElem?_set_ne hne]
    · show [(f.Buffer.set f.End b).getD ((f.Start + f.NbBytes) % N) 0] = [b]
      rw [← hEnd, List.getD_eq_getElem?_getD]
      simp [List.getElem?_set_self, hlen ▸ hEndLt]

/-- A successful `FIFO_Get` preserves the structural invariant, returns the
head of the abstract queue and leaves its tail. -/
theorem FIFO_Get_queue (N : Nat) (f : TFIFO) (d : Nat) (hInv : FIFOInv N f)
    (h : 0 < f.NbBytes) :
    (FIFO_Get N f d).1 = true ∧ FIFOInv N (FIFO_Get N f d).2.2 ∧
    queueList N f = (FIFO_Get N f d).2.1 :: queueList N (FIFO_Get N f d).2.2 := by
  obtain ⟨hle, hStart, hEnd, hlen⟩ := hInv
  have hN : 0 < N := Nat.lt_of_lt_of_le h hle
  unfold FIFO_Get
  rw [if_pos h]
  refine ⟨rfl, ⟨show f.NbBytes - 1 ≤ N by omega, Nat.mod_lt _ hN, ?_, hlen⟩, ?_⟩
  · show f.End = ((f.Start + 1) % N + (f.NbBytes - 1)) % N
    rw [Nat.mod_add_mod, hEnd]
    congr 1
    omega
  · show (List.range f.NbBytes).map (fun i => f.Buffer.getD ((f.Start + i) % N) 0) =
      f.Buffer.getD f.Start 0 ::
        (List.range (f.NbBytes - 1)).map (fun i => f.Buffer.getD (((f.Start + 1) % N + i) % N) 0)
    obtain ⟨m, hm⟩ : ∃ m, f.NbBytes = m + 1 := ⟨f.NbBytes - 1, by omega⟩
    rw [hm, Nat.add_sub_cancel, List.range_succ_eq_map, List.map_cons, List.map_map]
    congr 1
    · rw [Nat.add_zero, Nat.mod_eq_of_lt hStart]
    · apply List.map_congr_left
      intro i hi
      show f.Buffer.getD ((f.Start + Nat.succ i) % N) 0 =
        f.Buffer.getD (((f.Start + 1) % N + i) % N) 0
      rw [Nat.mod_add_mod]
      congr 2
      omega

/-- Along any sequence of non-blocking operations the structural invariant
holds and the successfully put bytes are the successfully got bytes followed
by the current queue contents. -/
theorem runNB_fifo (N : Nat) (ops : List NBOp) :
    ∀ f puts gets, FIFOInv N f → puts = gets ++ queueList N f →
      FIFOInv N (runNB N ops (f, puts, gets)).1 ∧
      (runNB N ops (f, puts, gets)).2.1 =
        (runNB N ops (f, puts, gets)).2.2 ++ queueList N (runNB N ops (f, puts, gets)).1 := by
  induction ops with
  | nil =>
    intro f puts gets hInv hrel
    exact ⟨hInv, hrel⟩
  | cons op rest ih =>
    intro f puts gets hInv hrel
    cases op with
    | put b =>
      by_cases h : f.NbBytes < N
      · obtain ⟨h1, h2, h3⟩ := FIFO_Put_queue N f b hInv h
        simp only [runNB, h1, if_true]
        exact ih _ _ _ h2 (by rw [h3, hrel, List.append_assoc])
      · have hput : FIFO_Put N f b = (false, f) := by
          unfold FIFO_Put
          rw [if_neg h]
        simp only [runNB, hput]
        exact ih _ _ _ hInv hrel
    | get =>
      by_cases h : 0 < f.NbBytes
      · obtain ⟨h1, h2, h3⟩ := FIFO_Get_queue N f 0 hInv h
        simp only [runNB, h1, if_true]
        refine ih _ _ _ h2 ?_
        rw [hrel, h3, List.append_assoc]
        rfl
      · have hget : FIFO_Get N f 0 = (false, 0, f) := by
          unfold FIFO_Get
          rw [if_neg h]
        simp only [runNB, hget]
        exact ih _ _ _ hInv hrel

/-- C4: starting from the initial state, any sequence of non-blocking puts
and gets keeps the byte count between 0 and N, retrieves bytes in exactly
the order they were put (the put history is the got history followed by the
current queue contents), makes a further put fail exactly when the count is
N and otherwise append the byte at the end index with the count incremented,
and makes a further get fail exactly when the count is 0. -/
theorem fifo_order_law (N : Nat) (hN : 0 < N) (ops : List NBOp) (b d : Nat) :
    (runNB N ops (FIFO_Init N, [], [])).1.NbBytes ≤ N ∧
    (runNB N ops (FIFO_Init N, [], [])).2.1 =
      (runNB N ops (FIFO_Init N, [], [])).2.2 ++
        queueList N (runNB N ops (FIFO_Init N, [], [])).1 ∧
    ((FIFO_Put N (runNB N ops (FIFO_Init N, [], [])).1 b).1 = false ↔
      (runNB N ops (FIFO_Init N, [], [])).1.NbBytes = N) ∧
    ((FIFO_Put N (runNB N ops (FIFO_Init N, [], [])).1 b).1 = true →
      (FIFO_Put N (runNB N ops (FIFO_Init N, [], [])).1 b).2.Buffer =
        (runNB N ops (FIFO_Init N, [], [])).1.Buffer.set
          (((runNB N ops (FIFO_Init N, [], [])).1.Start +
            (runNB N ops (FIFO_Init N, [], [])).1.NbBytes) % N) b ∧
      (FIFO_Put N (runNB N ops (FIFO_Init N, [], [])).1 b).2.NbBytes =
        (runNB N ops (FIFO_Init N, [], [])).1.NbBytes + 1) ∧
    ((FIFO_Get N (runNB N ops (FIFO_Init N, [], [])).1 d).1 = false ↔
      (runNB N ops (FIFO_Init N, [], [])).1.NbBytes = 0) := by
  have hInit : FIFOInv N (FIFO_Init N) :=
    ⟨Nat.zero_le N, hN, by simp [FIFO_Init], by simp [FIFO_Init]⟩
  have hrel : ([] : List Nat) = [] ++ queueList N (FIFO_Init N) := by
    simp [queueList, FIFO_Init]
  obtain ⟨hInv, hlaw⟩ := runNB_fifo N ops (FIFO_Init N) [] [] hInit hrel
  obtain ⟨hle, hStart, hEnd, hlen⟩ := hInv
  refine ⟨hle, hlaw, ?_, ?_, ?_⟩
  · by_cases h : (runNB N ops (FIFO_Init N, [], [])).1.NbBytes < N
    · simp only [FIFO_Put, if_pos h]
      simp only [Bool.true_eq_false, false_iff]
      omega
    · simp only [FIFO_Put, if_neg h]
      simp only [true_iff]
      omega
  · intro hp
    by_cases h : (runNB N ops (FIFO_Init N, [], [])).1.NbBytes < N
    · unfold FIFO_Put
      rw [if_pos h]
      exact ⟨by rw [← hEnd], rfl⟩
    · unfold FIFO_Put at hp
      rw [if_neg h] at hp
      cases hp
  · by_cases h : 0 < (runNB N ops (FIFO_Init N, [], [])).1.NbBytes
    · simp only [FIFO_Get, if_pos h]
      simp only [Bool.true_eq_false, false_iff]
      omega
    · simp only [FIFO_Get, if_neg h]
      simp only [true_iff]
      omega

/-- Witness for `fifo_order_law`: the FIFO law after a put of 5 and a get on
a capacity-2 buffer. -/
theorem fifo_order_law_witness :
    (runNB 2 [NBOp.put 5, NBOp.get] (FIFO_Init 2, [], [])).2.1 =
      (runNB 2 [NBOp.put 5, NBOp.get] (FIFO_Init 2, [], [])).2.2 ++
        queueList 2 (runNB 2 [NBOp.put 5, NBOp.get] (FIFO_Init 2, [], [])).1 :=
  (fifo_order_law 2 (by decide) [NBOp.put 5, NBOp.get] 7 3).2.1

/-- A completed `FIFO_BlockingPut` preserves the semaphore accounting
invariant. -/
theorem FIFO_BlockingPut_sem (N : Nat) (f f2 : TFIFO) (b : Nat) (hS : SemInv N f)
    (h : FIFO_BlockingPut N f b = some f2) : SemInv N f2 := by
  obtain ⟨hg, hp⟩ := hS
  unfold FIFO_BlockingPut at h
  by_cases hw : 0 < f.PutSemaphore
  · rw [if_pos hw] at h
    have hlt : f.NbBytes < N := by omega
    simp only [FIFO_Put, if_pos (show ({ f with PutSemaphore := f.PutSemaphore - 1 } :
      TFIFO).NbBytes < N from hlt), if_true] at h
    obtain rfl := Option.some.inj h
    exact ⟨by simp [hg], by simp; omega⟩
  · rw [if_neg hw] at h
    cases h

/-- A completed `FIFO_BlockingGet` preserves the semaphore accounting
invariant. -/
theorem FIFO_BlockingGet_sem (N : Nat) (f : TFIFO) (r : Nat × TFIFO) (d : Nat) (hS : SemInv N f)
    (h : FIFO_BlockingGet N f d = some r) : SemInv N r.2 := by
  obtain ⟨hg, hp⟩ := hS
  unfold FIFO_BlockingGet at h
  by_cases hw : 0 < f.GetSemaphore
  · rw [if_pos hw] at h
    have hlt : 0 < f.NbBytes := by omega
    simp only [FIFO_Get, if_pos (show 0 < ({ f with GetSemaphore := f.GetSemaphore - 1 } :
      TFIFO).NbBytes from hlt), if_true] at h
    obtain rfl := Option.some.inj h
    exact ⟨by simp; omega, by simp; omega⟩
  · rw [if_neg hw] at h
    cases h

/-- The semaphore accounting invariant holds after any completed sequence of
blocking operations. -/
theorem runBlocking_sem (N : Nat) (ops : List BOp) :
    ∀ f f2, SemInv N f → runBlocking N ops f = some f2 → SemInv N f2 := by
  induction ops with
  | nil =>
    intro f f2 hS hrun
    obtain rfl := Option.some.inj hrun
    exact hS
  | cons op rest ih =>
    intro f f2 hS hrun
    cases op with
    | put b =>
      simp only [runBlocking] at hrun
      cases hbp : FIFO_BlockingPut N f b with
      | none =>
        rw [hbp] at hrun
        cases hrun
      | some f3 =>
        rw [hbp] at hrun
        exact ih f3 f2 (FIFO_BlockingPut_sem N f f3 b hS hbp) hrun
    | get =>
      simp only [runBlocking] at hrun
      cases hbg : FIFO_BlockingGet N f 0 with
      | none =>
        rw [hbg] at hrun
        cases hrun
      | some r =>
        rw [hbg] at hrun
        exact ih r.2 f2 (FIFO_BlockingGet_sem N f r 0 hS hbg) hrun

/-- C5 (amended): for every state reached from the initial state by a
completed sequence of blocking put and blocking get operations, the
items-available count plus the space-available count equals the capacity N. -/
theorem fifo_semaphore_sum (N : Nat) (ops : List BOp) (f2 : TFIFO)
    (h : runBlocking N ops (FIFO_Init N) = some f2) :
    f2.GetSemaphore + f2.PutSemaphore = N := by
  have hS : SemInv N f2 :=
    runBlocking_sem N ops (FIFO_Init N) f2 ⟨rfl, by simp [FIFO_Init, SemInv]⟩ h
  obtain ⟨hg, hp⟩ := hS
  omega

/-- Witness for `fifo_semaphore_sum`: one blocking put on a capacity-4
buffer. -/
theorem fifo_semaphore_sum_witness :
    (⟨[9, 0, 0, 0], 0, 1, 1, 1, 3⟩ : TFIFO).GetSemaphore +
      (⟨[9, 0, 0, 0], 0, 1, 1, 1, 3⟩ : TFIFO).PutSemaphore = 4 :=
  fifo_semaphore_sum 4 [BOp.put 9] ⟨[9, 0, 0, 0], 0, 1, 1, 1, 3⟩ (by decide)

/-- Counterexample to C5 as stated: a single successful non-blocking
`FIFO_Put` (the designed interrupt-side producer path) completes while never
waiting on `PutSemaphore`, leaving items-available plus space-available at
N + 1 instead of N. -/
theorem fifo_semaphore_sum_counterexample :
    (FIFO_Put 4 (FIFO_Init 4) 7).1 = true ∧
    (FIFO_Put 4 (FIFO_Init 4) 7).2.GetSemaphore +
      (FIFO_Put 4 (FIFO_Init 4) 7).2.PutSemaphore ≠ 4 := by
  decide

/-- C1: the erase-and-program outcome does not propagate through the public
write operations: at a valid, aligned in-range address with a failing erase,
`Flash_WriteN` reports false, yet `Flash_Write32`, `Flash_Write16` and
`Flash_Write8` (whose C bodies drop the result of `Flash_WriteN` by a missing
return statement) report true.  This exhibits the divergence between the
claim and the code. -/
theorem flash_write_silent_success :
    (Flash_WriteN ⟨false, true⟩ 1024 (fun _ => 0xFF) 1024 7 4).1 = false ∧
    (Flash_Write32 ⟨false, true⟩ 1024 (fun _ => 0xFF) 1024 7).1 = true ∧
    (Flash_WriteN ⟨false, true⟩ 1024 (fun _ => 0xFF) 1024 7 2).1 = false ∧
    (Flash_Write16 ⟨false, true⟩ 1024 (fun _ => 0xFF) 1024 7).1 = true ∧
    (Flash_WriteN ⟨false, true⟩ 1024 (fun _ => 0xFF) 1024 7 1).1 = false ∧
    (Flash_Write8 ⟨false, true⟩ 1024 (fun _ => 0xFF) 1024 7).1 = true :=
  ⟨rfl, rfl, rfl, rfl, rfl, rfl⟩

/-- C2: for all byte values, decoding the 5 encoded wire bytes from an empty
window yields exactly the packet with no resynchronisation discards and an
empty window; in particular `encode(0x04,0,0,0)` is `[4,0,0,0,4]` and that
stream decodes to `Packet 4 0 0 0`. -/
theorem packet_roundtrip (c p1 p2 p3 : Nat) :
    decodeStream (packetBytes c p1 p2 p3) [] = ([], [⟨c, p1, p2, p3⟩], 0) ∧
    packetBytes 4 0 0 0 = [4, 0, 0, 0, 4] ∧
    decodeStream [4, 0, 0, 0, 4] [] = ([], [⟨4, 0, 0, 0⟩], 0) := by
  refine ⟨?_, by decide, by decide⟩
  simp [decodeStream, feedByte, IsChecksumValid, packetBytes]

/-- C3 (amended): a full 5-byte window with a failing checksum discards
exactly its first byte, emits no packet and continues; and a corrupted frame
(checksum mismatch) followed by a valid frame is decoded, provided each of
the four windows straddling the two frames also fails its checksum, by
discarding exactly the five corrupted bytes one at a time and emitting
exactly the second frame's packet. -/
theorem packet_resync (b0 b1 b2 b3 b4 v0 v1 v2 v3 v4 : Nat) (buf : List Nat) (b : Nat) :
    ((buf ++ [b]).length = 5 → IsChecksumValid (buf ++ [b]) = false →
      feedByte buf b = ((buf ++ [b]).tail, none, 1)) ∧
    (IsChecksumValid [b0, b1, b2, b3, b4] = false →
     IsChecksumValid [b1, b2, b3, b4, v0] = false →
     IsChecksumValid [b2, b3, b4, v0, v1] = false →
     IsChecksumValid [b3, b4, v0, v1, v2] = false →
     IsChecksumValid [b4, v0, v1, v2, v3] = false →
     IsChecksumValid [v0, v1, v2, v3, v4] = true →
     decodeStream [b0, b1, b2, b3, b4, v0, v1, v2, v3, v4] [] =
       ([], [⟨v0, v1, v2, v3⟩], 5)) := by
  constructor
  · intro hlen hbad
    simp [feedByte, hlen, hbad]
  · intro hb h1 h2 h3 h4 hv
    simp [decodeStream, feedByte, hb, h1, h2, h3, h4, hv]

/-- Witness for `packet_resync` at the concrete frames
`[1,2,3,4,5]` (bad checksum) and `[2,2,2,2,0]` (valid). -/
theorem packet_resync_witness :
    decodeStream [1, 2, 3, 4, 5, 2, 2, 2, 2, 0] [] = ([], [⟨2, 2, 2, 2⟩], 5) :=
  (packet_resync 1 2 3 4 5 2 2 2 2 0 [] 0).2 (by decide) (by decide) (by decide)
    (by decide) (by decide) (by decide)

/-- Counterexample to C3 as stated: the stream made of the valid frame
`[0,0,0,0,0]` with its second byte corrupted to 1, followed by the fully
valid frame `[1,2,0,0,3]`, makes the decoder emit the false packet
`{1,0,0,0}` (built from corrupted bytes plus the second frame's first byte)
and never the second frame's packet `{1,2,0,0}`. -/
theorem packet_resync_counterexample :
    IsChecksumValid [0, 0, 0, 0, 0] = true ∧
    IsChecksumValid [0, 1, 0, 0, 0] = false ∧
    IsChecksumValid [1, 2, 0, 0, 3] = true ∧
    (decodeStream [0, 1, 0, 0, 0, 1, 2, 0, 0, 3] []).2.1 = [⟨1, 0, 0, 0⟩] ∧
    (⟨1, 0, 0, 0⟩ : TPacket) ≠ ⟨1, 2, 0, 0⟩ := by
  decide

/-- C6: allocation with a size other than 1, 2 or 4 fails; for the supported
sizes and every 8-bit bitmap the allocator agrees with the spec's first-fit
scan (granting the first size-aligned offset with a free window and marking
its bits, failing when none exists); and the 2, 2, 4 allocation sequence
exhausts the phrase so a further 2-byte allocation fails. -/
theorem flash_allocate_first_fit (bm s : Nat) :
    (s ≠ 1 → s ≠ 2 → s ≠ 4 → Flash_AllocateVar bm s = none) ∧
    (∀ bm2 < 256, ∀ s2 < 5, (s2 = 1 ∨ s2 = 2 ∨ s2 = 4) →
      Flash_AllocateVar bm2 s2 =
        (specFirstFit bm2 s2).map fun off => (off, bm2 ||| (((1 <<< s2) - 1) <<< off))) ∧
    (Flash_AllocateVar 0 2 = some (0, 3) ∧ Flash_AllocateVar 3 2 = some (2, 15) ∧
     Flash_AllocateVar 15 4 = some (4, 255) ∧ Flash_AllocateVar 255 2 = none) := by
  refine ⟨?_, by decide, by decide⟩
  intro h1 h2 h4
  simp [Flash_AllocateVar, h1, h2, h4]

/-- Witness for `flash_allocate_first_fit`: an unsupported size fails, and a
supported size matches the first-fit scan on a concrete bitmap. -/
theorem flash_allocate_first_fit_witness :
    Flash_AllocateVar 0 3 = none ∧
    Flash_AllocateVar 5 2 =
      (specFirstFit 5 2).map fun off => (off, 5 ||| (((1 <<< 2) - 1) <<< off)) :=
  ⟨(flash_allocate_first_fit 0 3).1 (by decide) (by decide) (by decide),
   (flash_allocate_first_fit 0 3).2.1 5 (by decide) 2 (by decide) (by decide)⟩

/-- Bit arithmetic of the acknowledgement mask over all byte commands: masking
with `(wasSuccess << 7) | 0x7F` preserves bits 0 to 6 and forces bit 7 to the
success flag, whenever bit 7 of the command was set. -/
theorem ack_mask_bits : ∀ s : Bool, ∀ cmd < 256, cmd &&& PACKET_ACK_MASK ≠ 0 →
    (cmd &&& (((if s then 1 else 0) <<< 7) ||| 0x7F)) &&& 0x7F = cmd &&& 0x7F ∧
    (cmd &&& (((if s then 1 else 0) <<< 7) ||| 0x7F)) &&& 0x80 = (if s then 0x80 else 0) := by
  decide

/-- C9: when bit 7 of the received command byte is set, the acknowledgement
echoes the three parameters unchanged and a command byte with bits 0 to 6
unchanged and bit 7 equal to the success flag; when bit 7 is clear nothing is
transmitted. -/
theorem send_acknowledge_spec (s : Bool) (cmd p1 p2 p3 : Nat) (hcmd : cmd < 256) :
    (cmd &&& PACKET_ACK_MASK ≠ 0 →
      SendAcknowledgeIfRequired cmd p1 p2 p3 s =
        some (cmd &&& (((if s then 1 else 0) <<< 7) ||| 0x7F), p1, p2, p3) ∧
      (cmd &&& (((if s then 1 else 0) <<< 7) ||| 0x7F)) &&& 0x7F = cmd &&& 0x7F ∧
      (cmd &&& (((if s then 1 else 0) <<< 7) ||| 0x7F)) &&& 0x80 = (if s then 0x80 else 0)) ∧
    (cmd &&& PACKET_ACK_MASK = 0 → SendAcknowledgeIfRequired cmd p1 p2 p3 s = none) := by
  constructor
  · intro h
    exact ⟨by rw [SendAcknowledgeIfRequired, if_pos h], ack_mask_bits s cmd hcmd h⟩
  · intro h
    rw [SendAcknowledgeIfRequired, if_neg (by simp [h])]

/-- C7 (amended): with the source's 32-bit address arithmetic, and provided
neither the region end `start + 8` nor `address + size` wraps around 2^32, a
write whose address is below the region, whose end exceeds the region, or
which is unaligned to its size fails with the stored phrase unchanged; a
valid write of a supported size whose erase and program steps succeed reports
success and leaves every byte of the phrase outside the written sub-range
unchanged. -/
theorem flash_writeN_frame (hw : FlashHW) (start : Nat) (stored : Fin 8 → Nat)
    (address data size : Nat) (i : Fin 8) :
    (start + 8 < UINT32_MOD → address + size < UINT32_MOD →
      ¬(start ≤ address ∧ address + size ≤ start + 8 ∧ address % size = 0) →
      Flash_WriteN hw start stored address data size = (false, stored)) ∧
    ((size = 1 ∨ size = 2 ∨ size = 4) → start + 8 < UINT32_MOD →
      start ≤ address → address + size ≤ start + 8 →
      address % size = 0 → hw.eraseOk = true → hw.programOk = true →
      (Flash_WriteN hw start stored address data size).1 = true ∧
      ((i.val < address - start ∨ address - start + size ≤ i.val) →
        (Flash_WriteN hw start stored address data size).2 i = stored i)) := by
  constructor
  · intro hs ha h
    have e1 : (start + 8) % UINT32_MOD = start + 8 := Nat.mod_eq_of_lt hs
    have e2 : (address + size) % UINT32_MOD = address + size := Nat.mod_eq_of_lt ha
    have hd : address < start ∨
        (start + 8) % UINT32_MOD < (address + size) % UINT32_MOD ∨ address % size ≠ 0 := by
      rw [e1, e2]
      by_contra hc
      push_neg at hc
      exact h ⟨by omega, by omega, hc.2.2⟩
    unfold Flash_WriteN
    rw [if_pos hd]
  · intro hsize hs h1 h2 h3 he hp
    have e1 : (start + 8) % UINT32_MOD = start + 8 := Nat.mod_eq_of_lt hs
    have e2 : (address + size) % UINT32_MOD = address + size :=
      Nat.mod_eq_of_lt (by omega)
    have hcond : ¬(address < start ∨
        (start + 8) % UINT32_MOD < (address + size) % UINT32_MOD ∨ address % size ≠ 0) := by
      push_neg
      refine ⟨by omega, ?_, h3⟩
      rw [e1, e2]
      omega
    have hred : Flash_WriteN hw start stored address data size =
        (true, setBytes stored (address - start) size data) := by
      unfold Flash_WriteN ModifySector EraseSector WritePhrase
      rw [if_neg hcond, if_pos hsize, he, hp]
      simp
    rw [hred]
    refine ⟨rfl, ?_⟩
    intro hi
    show setBytes stored (address - start) size data i = stored i
    unfold setBytes
    rw [if_neg]
    omega

/-- Witness for `flash_writeN_frame`: a 2-byte write at offset 2 of an
8-byte region based at 0 succeeds and leaves byte 0 unchanged. -/
theorem flash_writeN_frame_witness :
    (Flash_WriteN ⟨true, true⟩ 0 (fun _ => 255) 2 43981 2).1 = true ∧
    (((0 : Fin 8).val < 2 - 0 ∨ 2 - 0 + 2 ≤ (0 : Fin 8).val) →
      (Flash_WriteN ⟨true, true⟩ 0 (fun _ => 255) 2 43981 2).2 0 = 255) :=
  (flash_writeN_frame ⟨true, true⟩ 0 (fun _ => 255) 2 43981 2 0).2
    (Or.inr (Or.inl rfl)) (by decide) (by omega) (by omega) (by decide) rfl rfl

/-- Counterexample to C7 as stated: at address 0xFFFFFFFC with size 4 the
sum `address + size` wraps to 0 in the source's uint32 arithmetic, so the
validation of `Flash_WriteN` passes even though the write's end lies far
beyond the managed region, and the write proceeds and reports success
instead of returning failure with the stored phrase unchanged. -/
theorem flash_writeN_frame_counterexample :
    1024 ≤ 4294967292 ∧ (4294967292 : Nat) % 4 = 0 ∧ 1024 + 8 < 4294967292 + 4 ∧
    (Flash_WriteN ⟨true, true⟩ 1024 (fun _ => 255) 4294967292 7 4).1 = true := by
  refine ⟨by decide, by decide, by decide, ?_⟩
  rfl

/-- Along a byte list pushed with short-circuit puts, the overall result is
success exactly when the whole list fits, and the queue gains exactly the
longest fitting initial segment of the list. -/
theorem putList_spec (N : Nat) (bs : List Nat) :
    ∀ f, FIFOInv N f →
      ((putList N bs f).1 = true ↔ f.NbBytes + bs.length ≤ N) ∧
      FIFOInv N (putList N bs f).2 ∧
      queueList N (putList N bs f).2 = queueList N f ++ bs.take (N - f.NbBytes) := by
  induction bs with
  | nil =>
    intro f hInv
    refine ⟨by simpa [putList] using hInv.1, hInv, by simp [putList]⟩
  | cons b bs ih =>
    intro f hInv
    by_cases h : f.NbBytes < N
    · obtain ⟨h1, h2, h3⟩ := FIFO_Put_queue N f b hInv h
      have hNb : (FIFO_Put N f b).2.NbBytes = f.NbBytes + 1 := by
        simp [FIFO_Put, h]
      simp only [putList, h1, if_true]
      obtain ⟨ih1, ih2, ih3⟩ := ih (FIFO_Put N f b).2 h2
      refine ⟨?_, ih2, ?_⟩
      · rw [ih1, hNb]
        simp only [List.length_cons]
        omega
      · rw [ih3, h3, hNb, List.append_assoc]
        congr 1
        have hsub : N - f.NbBytes = (N - (f.NbBytes + 1)) + 1 := by omega
        rw [hsub, List.take_succ_cons]
        rfl
    · have hput : FIFO_Put N f b = (false, f) := by
        unfold FIFO_Put
        rw [if_neg h]
      have hred : putList N (b :: bs) f = (false, f) := by
        simp [putList, hput]
      rw [hred]
      refine ⟨?_, hInv, ?_⟩
      · simp only [Bool.false_eq_true, false_iff, List.length_cons]
        omega
      · have hsub : N - f.NbBytes = 0 := by omega
        rw [hsub]
        simp

/-- C8: an encode whose sink rejects one of the five wire bytes reports
failure, writes nothing after the first rejection, and keeps the bytes
accepted before it (the sink queue gains exactly the fitting initial segment
of the five wire bytes); when all five fit it reports success. -/
theorem packet_put_partial (N : Nat) (f : TFIFO) (c p1 p2 p3 : Nat) (hInv : FIFOInv N f) :
    ((Packet_Put N f c p1 p2 p3).1 = true ↔ f.NbBytes + 5 ≤ N) ∧
    queueList N (Packet_Put N f c p1 p2 p3).2 =
      queueList N f ++ (packetBytes c p1 p2 p3).take (N - f.NbBytes) := by
  obtain ⟨h1, _h2, h3⟩ := putList_spec N (packetBytes c p1 p2 p3) f hInv
  exact ⟨by simpa [Packet_Put, packetBytes] using h1, by simpa [Packet_Put] using h3⟩

/-- Witness for `packet_put_partial`: pushing a packet into a capacity-3
sink fails but writes the first three wire bytes. -/
theorem packet_put_partial_witness :
    ((Packet_Put 3 (FIFO_Init 3) 1 2 3 4).1 = true ↔ (FIFO_Init 3).NbBytes + 5 ≤ 3) ∧
    queueList 3 (Packet_Put 3 (FIFO_Init 3) 1 2 3 4).2 =
      queueList 3 (FIFO_Init 3) ++ (packetBytes 1 2 3 4).take (3 - (FIFO_Init 3).NbBytes) :=
  packet_put_partial 3 (FIFO_Init 3) 1 2 3 4 ⟨by decide, by decide, by decide, by decide⟩

/-- Witness for `send_acknowledge_spec`: a successful handling of command
0x84 (STARTUP with the acknowledgement bit set). -/
theorem send_acknowledge_spec_witness :
    SendAcknowledgeIfRequired 132 1 2 3 true =
      some (132 &&& ((1 <<< 7) ||| 0x7F), 1, 2, 3) ∧
    (132 &&& ((1 <<< 7) ||| 0x7F)) &&& 0x7F = 132 &&& 0x7F ∧
    (132 &&& ((1 <<< 7) ||| 0x7F)) &&& 0x80 = 0x80 :=
  (send_acknowledge_spec true 132 1 2 3 (by decide)).1 (by decide)

/-- C10: a failing non-blocking operation is a no-op: a get on an empty
buffer returns false leaving the state, both semaphores and the caller's
byte untouched, and a put on a full buffer returns false leaving the state
and both semaphores untouched. -/
theorem fifo_fail_atomic (N : Nat) (f : TFIFO) (b d : Nat) :
    (f.NbBytes = N → FIFO_Put N f b = (false, f)) ∧
    (f.NbBytes = 0 → FIFO_Get N f d = (false, d, f)) := by
  constructor
  · intro h
    simp [FIFO_Put, h]
  · intro h
    simp [FIFO_Get, h]

/-- Witness for `fifo_fail_atomic`: a full two-byte buffer rejects a put
unchanged, and an empty buffer rejects a get unchanged. -/
theorem fifo_fail_atomic_witness :
    FIFO_Put 2 ⟨[7, 8], 0, 0, 2, 2, 0⟩ 5 = (false, ⟨[7, 8], 0, 0, 2, 2, 0⟩) ∧
    FIFO_Get 2 (FIFO_Init 2) 9 = (false, 9, FIFO_Init 2) :=
  ⟨(fifo_fail_atomic 2 ⟨[7, 8], 0, 0, 2, 2, 0⟩ 5 9).1 rfl,
   (fifo_fail_atomic 2 (FIFO_Init 2) 5 9).2 rfl⟩
